import Mathlib

/-!
Verification of the natural-language specification of `src/pdfman.py`
(a PDF search/split command-line tool) against a shallow embedding of
its code. Python strings are embedded as lists of Unicode code points
(`List Nat`); a document is embedded as the list of the texts extracted
from its pages (`List (List Nat)`), which is the only capability of the
external PDF library that the search logic consumes; the split logic
consumes pages as opaque values, embedded the same way.
-/

deriving instance DecidableEq for Except

namespace Pdfman

/-- Code points of a string literal, used to write concrete inputs. -/
def codes (s : String) : List Nat := s.data.map Char.toNat

/-- Whitespace code points: the class matched by the regex `\s` on Python
strings and stripped by `str.strip` (ASCII whitespace and separators,
plus the Unicode space characters). -/
def pyIsSpace (c : Nat) : Bool :=
  (9 ≤ c && c ≤ 13) || (28 ≤ c && c ≤ 32) || c == 133 || c == 160 ||
  c == 5760 || (8192 ≤ c && c ≤ 8202) || c == 8232 || c == 8233 ||
  c == 8239 || c == 8287 || c == 12288

/-- ASCII fragment of `str.lower`: maps A–Z to a–z and leaves every other
code point unchanged. -/
def pyToLower (c : Nat) : Nat := if 65 ≤ c ∧ c ≤ 90 then c + 32 else c

/-- One left-to-right pass of `re.sub(r"\s+", " ", text)`: each maximal run
of whitespace is replaced by a single space (code 32). The Boolean flag
records whether the previous character was whitespace, i.e. whether the
current run has already emitted its space. -/
def collapseWS : Bool → List Nat → List Nat
  | _, [] => []
  | b, c :: rest =>
    if pyIsSpace c then
      if b then collapseWS true rest else 32 :: collapseWS true rest
    else c :: collapseWS false rest

/-- Left part of `str.strip`: drop leading whitespace. -/
def lstripWS (l : List Nat) : List Nat := l.dropWhile pyIsSpace

/-- Right part of `str.strip`: drop trailing whitespace. -/
def rstripWS (l : List Nat) : List Nat := (l.reverse.dropWhile pyIsSpace).reverse

/-- `str.strip()`: drop whitespace at both ends. -/
def stripWS (l : List Nat) : List Nat := rstripWS (lstripWS l)

/-- `normalize` from pdfman.py: empty input yields the empty string,
otherwise `re.sub(r"\s+", " ", text).strip().lower()`. -/
def normalize (text : List Nat) : List Nat :=
  if text = [] then []
  else (stripWS (collapseWS false text)).map pyToLower

/-- Python's substring operator `needle in hay` on strings: `true` iff
`needle` occurs contiguously inside `hay`. -/
def pyContains (hay needle : List Nat) : Bool :=
  match hay with
  | [] => needle.isEmpty
  | _ :: t => needle.isPrefixOf hay || pyContains t needle

/-- The page-scanning loop of `search_pdf`: `nq` is the normalized query,
`i` the 0-based index of the first page of `pages`; a page whose
normalized text contains `nq` contributes its 1-based number `i + 1`. -/
def searchFrom (nq : List Nat) : List (List Nat) → Nat → List Nat
  | [], _ => []
  | p :: rest, i =>
    if pyContains (normalize p) nq then (i + 1) :: searchFrom nq rest (i + 1)
    else searchFrom nq rest (i + 1)

/-- `search_pdf` from pdfman.py, restricted to its result (the list of
matching 1-based page numbers that it reports): scans every page in order
and collects the pages whose normalized extracted text contains the
normalized query. -/
def search_pdf (pages : List (List Nat)) (query : List Nat) : List Nat :=
  searchFrom (normalize query) pages 0

/-- ASCII decimal digit test. -/
def pyIsDigit (c : Nat) : Bool := 48 ≤ c && c ≤ 57

/-- Digits of an integer literal after its first digit: ASCII digits with
single underscores allowed between digits, accumulating the value. -/
def digitsVal : Nat → List Nat → Option Nat
  | acc, [] => some acc
  | acc, c :: rest =>
    if pyIsDigit c then digitsVal (10 * acc + (c - 48)) rest
    else if c == 95 then
      match rest with
      | d :: rest2 =>
        if pyIsDigit d then digitsVal (10 * acc + (d - 48)) rest2 else none
      | [] => none
    else none

/-- A nonempty all-digit (with inner underscores) literal and its value. -/
def pyDigits : List Nat → Option Nat
  | [] => none
  | c :: rest => if pyIsDigit c then digitsVal (c - 48) rest else none

/-- Python `int(s)` on a decimal string (ASCII fragment): surrounding
whitespace is stripped, an optional single sign is allowed, then a
nonempty digit sequence with single underscores between digits; `none`
models the `ValueError` raised on any other input. -/
def pyInt (l : List Nat) : Option Int :=
  match stripWS l with
  | 43 :: rest => (pyDigits rest).map (fun n => (n : Int))
  | 45 :: rest => (pyDigits rest).map (fun n => -(n : Int))
  | t => (pyDigits t).map (fun n => (n : Int))

/-- Python `str.split(sep)` for a one-character separator: splits at every
occurrence of `sep`, keeping empty parts (`"".split(sep) = ['']`). -/
def pysplit (sep : Nat) : List Nat → List (List Nat)
  | [] => [[]]
  | c :: rest =>
    if c == sep then [] :: pysplit sep rest
    else
      match pysplit sep rest with
      | [] => [[c]]
      | w :: ws => (c :: w) :: ws

/-- The distinct `ValueError` outcomes of `parse_range` (all are Python
`ValueError`s; the first three messages are raised explicitly by
pdfman.py, the other two arise inside `int()` and tuple unpacking). -/
inductive RangeErr where
  /-- explicit raise: "Page range must be in start-end format" -/
  | formatErr
  /-- built-in: unpacking `r.split("-")` that does not have two elements -/
  | unpackErr
  /-- built-in: `int()` applied to a non-integer part -/
  | intErr
  /-- explicit raise: "Pages must be >= 1" -/
  | pagesLt1
  /-- explicit raise: "Start cannot be greater than end" -/
  | startGtEnd
  /-- explicit raise: "Page range exceeds document length" -/
  | exceedsLen
  deriving DecidableEq

/-- `parse_range` from pdfman.py: checks `"-" in r`, splits on `"-"` and
unpacks into two parts, converts both with `int` (first part first, as in
the tuple assignment), then validates the bounds in the source's order. -/
def parse_range (r : List Nat) (total : Nat) : Except RangeErr (Int × Int) :=
  if (45 : Nat) ∈ r then
    match pysplit 45 r with
    | [a, b] =>
      match pyInt a with
      | none => .error .intErr
      | some s =>
        match pyInt b with
        | none => .error .intErr
        | some e =>
          if s < 1 ∨ e < 1 then .error .pagesLt1
          else if s > e then .error .startGtEnd
          else if e > (total : Int) then .error .exceedsLen
          else .ok (s, e)
    | _ => .error .unpackErr
  else .error .formatErr

/-- Python `range(a, b)` as a list. -/
def pyRange (a b : Nat) : List Nat := List.range' a (b - a)

/-- The page-copying loop of `split_pdf`: `for page_index in
range(start - 1, end): writer.add_page(reader.pages[page_index])`.
Pages are the (embedded) page values of the source document. -/
def extractPages (pages : List (List Nat)) (s e : Nat) : List (List Nat) :=
  (pyRange (s - 1) e).map (fun i => pages.getD i [])

/-- Decimal digits of a natural number, most significant first, with fuel
(the fuel `n + 1` always suffices). -/
def natCodesAux : Nat → Nat → List Nat → List Nat
  | 0, _, acc => acc
  | fuel + 1, n, acc =>
    if n < 10 then (48 + n % 10) :: acc
    else natCodesAux fuel (n / 10) ((48 + n % 10) :: acc)

/-- `str(n)` for a natural number. -/
def natCodes (n : Nat) : List Nat := natCodesAux (n + 1) n []

/-- `str(i)` for a Python int. -/
def intCodes (i : Int) : List Nat :=
  if i < 0 then 45 :: natCodes (-i).toNat else natCodes i.toNat

/-- The output file name computed by `split_pdf`:
`f"{output_name}_p_{start}-{end}.pdf"`. -/
def output_filename (base : List Nat) (s e : Int) : List Nat :=
  base ++ codes (r"_p_") ++ intCodes s ++ [45] ++ intCodes e ++ codes (r".pdf")

/-- `split_pdf` from pdfman.py, restricted to its effect: validates the
range string against the page count, and on success produces the output
file name (from the interactively supplied base name) together with the
pages written to that file; on failure it reports the `parse_range`
error (the process then exits nonzero). -/
def split_pdf (pages : List (List Nat)) (range_str : List Nat) (output_name : List Nat) :
    Except RangeErr (List Nat × List (List Nat)) :=
  match parse_range range_str pages.length with
  | .error err => .error err
  | .ok (s, e) => .ok (output_filename output_name s e, extractPages pages s.toNat e.toNat)

/-- Specification side: the maximal whitespace-separated words of a
string, written with one-character lookahead so that the recursion is
structural. -/
def wordsWS : List Nat → List (List Nat)
  | [] => []
  | [c] => if pyIsSpace c then [] else [[c]]
  | c :: d :: t =>
    if pyIsSpace c then wordsWS (d :: t)
    else if pyIsSpace d then [c] :: wordsWS (d :: t)
    else
      match wordsWS (d :: t) with
      | [] => [[c]]
      | w :: ws => (c :: w) :: ws

/-- Specification side, from the spec's words: normalization collapses
every whitespace run to one space, trims the ends and lowercases — i.e.
it joins the lowercased words with single spaces. -/
def normalizeSpec (l : List Nat) : List Nat :=
  List.intercalate [32] ((wordsWS l).map (List.map pyToLower))

/-- Whether a string ends in a whitespace character. -/
def endsWS (l : List Nat) : Bool :=
  match l.getLast? with
  | some c => pyIsSpace c
  | none => false

/-- Specification side: a range string literally of the form
`<int>-<int>` with plain digit integers. -/
def rangeForm (r : List Nat) : Bool :=
  match pysplit 45 r with
  | [a, b] => (!a.isEmpty) && a.all pyIsDigit && (!b.isEmpty) && b.all pyIsDigit
  | _ => false

/-! ## Helper lemmas -/

theorem pysplit_of_not_mem {r : List Nat} (h : (45 : Nat) ∉ r) : pysplit 45 r = [r] := by
  induction r with
  | nil => rfl
  | cons c t ih =>
    have hc : (c == 45) = false := by
      simp only [List.mem_cons, not_or] at h
      simpa using fun hh => h.1 (by omega)
    have ht : (45 : Nat) ∉ t := fun hm => h (List.mem_cons_of_mem _ hm)
    simp only [pysplit, hc, Bool.false_eq_true, if_false, ih ht]

theorem range'_map_getD {α : Type} (d : α) :
    ∀ (n a : Nat) (l : List α), a + n ≤ l.length →
      (List.range' a n).map (fun i => l.getD i d) = (l.drop a).take n := by
  intro n
  induction n with
  | zero => intro a l _; simp
  | succ n ih =>
    intro a l h
    have ha : a < l.length := by omega
    rw [List.range'_succ, List.map_cons, List.drop_eq_getElem_cons ha,
      List.take_succ_cons, ih (a + 1) l (by omega), List.getD_eq_getElem l d ha]

theorem pyContains_nil_right (hay : List Nat) : pyContains hay [] = true := by
  cases hay <;> simp [pyContains]

theorem isPrefixOf_iff_exists :
    ∀ a b : List Nat, a.isPrefixOf b = true ↔ ∃ t, b = a ++ t := by
  intro a
  induction a with
  | nil => intro b; simp
  | cons c a ih =>
    intro b
    cases b with
    | nil => simp [List.isPrefixOf]
    | cons d b =>
      rw [List.isPrefixOf_cons₂]
      simp only [Bool.and_eq_true, beq_iff_eq, ih b, List.cons_append, List.cons.injEq]
      constructor
      · rintro ⟨rfl, t, rfl⟩; exact ⟨t, rfl, rfl⟩
      · rintro ⟨t, rfl, rfl⟩; exact ⟨rfl, t, rfl⟩

theorem pyContains_iff_exists :
    ∀ hay needle : List Nat, pyContains hay needle = true ↔
      ∃ x y, hay = x ++ needle ++ y := by
  intro hay
  induction hay with
  | nil =>
    intro needle
    simp only [pyContains, List.isEmpty_iff]
    constructor
    · rintro rfl; exact ⟨[], [], rfl⟩
    · rintro ⟨x, y, hxy⟩
      have := congrArg List.length hxy
      simp only [List.length_nil, List.length_append] at this
      simpa using (List.length_eq_zero.mp (by omega))
  | cons h t ih =>
    intro needle
    simp only [pyContains, Bool.or_eq_true, isPrefixOf_iff_exists, ih]
    constructor
    · rintro (⟨u, hu⟩ | ⟨x, y, hxy⟩)
      · exact ⟨[], u, by simpa using hu⟩
      · exact ⟨h :: x, y, by simp [hxy]⟩
    · rintro ⟨x, y, hxy⟩
      cases x with
      | nil => exact Or.inl ⟨y, by simpa using hxy⟩
      | cons x0 xs =>
        right
        simp only [List.cons_append, List.cons.injEq] at hxy
        exact ⟨xs, y, hxy.2⟩

theorem searchFrom_mem (nq : List Nat) :
    ∀ (pages : List (List Nat)) (i k : Nat),
      k ∈ searchFrom nq pages i ↔
        ∃ j, j < pages.length ∧ k = i + j + 1 ∧
          pyContains (normalize (pages.getD j [])) nq = true := by
  intro pages
  induction pages with
  | nil => intro i k; simp [searchFrom]
  | cons p rest ih =>
    intro i k
    by_cases hp : pyContains (normalize p) nq = true
    · rw [searchFrom, if_pos hp]
      simp only [List.mem_cons, ih]
      constructor
      · rintro (rfl | ⟨j, hj, rfl, hc⟩)
        · exact ⟨0, by simp, by omega, by simpa using hp⟩
        · exact ⟨j + 1, by simp; omega, by omega, by simpa using hc⟩
      · rintro ⟨j, hj, rfl, hc⟩
        cases j with
        | zero => exact Or.inl (by omega)
        | succ j =>
          exact Or.inr ⟨j, by simp at hj; omega, by omega, by simpa using hc⟩
    · rw [searchFrom, if_neg hp]
      rw [ih]
      constructor
      · rintro ⟨j, hj, rfl, hc⟩
        exact ⟨j + 1, by simp; omega, by omega, by simpa using hc⟩
      · rintro ⟨j, hj, rfl, hc⟩
        cases j with
        | zero => exact absurd (by simpa using hc) hp
        | succ j =>
          exact ⟨j, by simp at hj; omega, by omega, by simpa using hc⟩

theorem searchFrom_gt (nq : List Nat) :
    ∀ (pages : List (List Nat)) (i : Nat), ∀ k ∈ searchFrom nq pages i, i < k := by
  intro pages
  induction pages with
  | nil => intro i k hk; simp [searchFrom] at hk
  | cons p rest ih =>
    intro i k hk
    by_cases hp : pyContains (normalize p) nq = true
    · rw [searchFrom, if_pos hp] at hk
      rcases List.mem_cons.mp hk with rfl | hk
      · omega
      · have := ih (i + 1) k hk; omega
    · rw [searchFrom, if_neg hp] at hk
      have := ih (i + 1) k hk; omega

theorem searchFrom_chain (nq : List Nat) :
    ∀ (pages : List (List Nat)) (i : Nat),
      List.Chain' (· < ·) (searchFrom nq pages i) := by
  intro pages
  induction pages with
  | nil => intro i; simp [searchFrom]
  | cons p rest ih =>
    intro i
    by_cases hp : pyContains (normalize p) nq = true
    · rw [searchFrom, if_pos hp]
      rw [List.chain'_cons']
      refine ⟨fun y hy => ?_, ih (i + 1)⟩
      exact searchFrom_gt nq rest (i + 1) y (List.mem_of_mem_head? hy)
    · rw [searchFrom, if_neg hp]
      exact ih (i + 1)

theorem searchFrom_nil_query :
    ∀ (pages : List (List Nat)) (i : Nat),
      searchFrom [] pages i = List.range' (i + 1) pages.length := by
  intro pages
  induction pages with
  | nil => intro i; simp [searchFrom]
  | cons p rest ih =>
    intro i
    rw [searchFrom, if_pos (pyContains_nil_right _), ih, List.length_cons,
      List.range'_succ]

/-! ## Claims -/

/-- C1: for every document and every validated range (start, end) with
1 ≤ start ≤ end ≤ page count, the split operation's page loop produces
exactly the pages start through end inclusive of the source document, in
original order and nothing else — i.e. the contiguous slice — and its
length is end - start + 1. -/
theorem split_extracts_exact_range (pages : List (List Nat)) (s e : Nat)
    (h1 : 1 ≤ s) (h2 : s ≤ e) (h3 : e ≤ pages.length) :
    extractPages pages s e = (pages.drop (s - 1)).take (e - s + 1) ∧
    (extractPages pages s e).length = e - s + 1 := by
  have hn : e - (s - 1) = e - s + 1 := by omega
  constructor
  · unfold extractPages pyRange
    rw [hn, range'_map_getD ([] : List Nat) (e - s + 1) (s - 1) pages (by omega)]
  · unfold extractPages pyRange
    rw [List.length_map, List.length_range']
    omega

/-- C1 witness: a 100-page document split with the validated range
(10, 40) yields exactly 31 pages. -/
theorem split_extracts_exact_range_witness :
    (extractPages ((List.range 100).map (fun i => [i])) 10 40).length = 40 - 10 + 1 :=
  (split_extracts_exact_range ((List.range 100).map (fun i => [i])) 10 40
    (by decide) (by decide) (by simp)).2

/-- C3: the range parser meets the spec's examples — parse("10-40", 100)
returns (10, 40); parse("5-3", 100) fails with the start-greater-than-end
value error; parse("0-5", 100) fails with the pages-must-be-at-least-one
value error; parse("10-200", 100) fails with the range-exceeds-document-
length value error; parse("abc", 100) fails with the format error. -/
theorem parse_range_spec_examples :
    parse_range (codes (r"10-40")) 100 = .ok (10, 40) ∧
    parse_range (codes (r"5-3")) 100 = .error .startGtEnd ∧
    parse_range (codes (r"0-5")) 100 = .error .pagesLt1 ∧
    parse_range (codes (r"10-200")) 100 = .error .exceedsLen ∧
    parse_range (codes (r"abc")) 100 = .error .formatErr := by
  refine ⟨by decide, by decide, by decide, by decide, by decide⟩

/-- C4 counterexample: the string "a-b" is not of the form int-int, yet
the parser fails with the error raised inside int() conversion, which is
not the wrong-format error — refuting the claim that every string not of
the form int-int fails with the wrong-format error. -/
theorem parse_range_format_claim_cex :
    rangeForm (codes (r"a-b")) = false ∧
    parse_range (codes (r"a-b")) 100 = .error .intErr ∧
    RangeErr.intErr ≠ RangeErr.formatErr := by
  refine ⟨by decide, by decide, by decide⟩

/-- C4 amended: a range string without a "-" fails with the wrong-format
error, and parsing succeeds exactly when splitting on "-" yields two
parts that both convert as Python ints with values satisfying
start ≥ 1, end ≥ 1, start ≤ end, end ≤ total; other malformed strings
fail with int-conversion or unpacking value errors instead of the
wrong-format error. -/
theorem parse_range_error_classification (r : List Nat) (total : Nat) :
    ((45 : Nat) ∉ r → parse_range r total = .error .formatErr) ∧
    (∀ s e : Int, parse_range r total = .ok (s, e) ↔
      ∃ a b, pysplit 45 r = [a, b] ∧ pyInt a = some s ∧ pyInt b = some e ∧
        1 ≤ s ∧ 1 ≤ e ∧ s ≤ e ∧ e ≤ (total : Int)) := by
  constructor
  · intro h
    unfold parse_range
    rw [if_neg h]
  · intro s e
    by_cases h45 : (45 : Nat) ∈ r
    · rcases hsp : pysplit 45 r with _ | ⟨a, _ | ⟨b, _ | ⟨c, tl⟩⟩⟩
      · simp [parse_range, if_pos h45, hsp]
      · simp [parse_range, if_pos h45, hsp]
      · rcases ha : pyInt a with _ | s0
        · simp [parse_range, if_pos h45, hsp, ha]
        · rcases hb : pyInt b with _ | e0
          · simp [parse_range, if_pos h45, hsp, ha, hb]
          · simp only [parse_range, if_pos h45, hsp, ha, hb]
            constructor
            · intro hok
              split_ifs at hok with hc1 hc2 hc3
              rw [Except.ok.injEq, Prod.mk.injEq] at hok
              obtain ⟨rfl, rfl⟩ := hok
              push_neg at hc1
              exact ⟨a, b, rfl, ha, hb, by omega, by omega, by omega, by omega⟩
            · rintro ⟨a', b', hab, ha', hb', hs1, he1, hse, het⟩
              obtain ⟨rfl, rfl⟩ : a = a' ∧ b = b' := by simpa using hab
              rw [ha, Option.some.injEq] at ha'
              rw [hb, Option.some.injEq] at hb'
              obtain rfl := ha'
              obtain rfl := hb'
              rw [if_neg (by omega), if_neg (by omega), if_neg (by omega)]
      · simp [parse_range, if_pos h45, hsp]
    · unfold parse_range
      rw [if_neg h45]
      simp only [reduceCtorEq, false_iff, not_exists, not_and]
      intro a b hab
      rw [pysplit_of_not_mem h45] at hab
      simp at hab

/-- C4 witness: the general classification applied at concrete inputs —
"abc" has no dash and fails with the wrong-format error, and "10-40"
against 100 pages succeeds with the witnessing decomposition. -/
theorem parse_range_error_classification_witness :
    parse_range (codes (r"abc")) 100 = .error .formatErr ∧
    ∃ a b, pysplit 45 (codes (r"10-40")) = [a, b] ∧ pyInt a = some 10 ∧
      pyInt b = some 40 ∧ (1 : Int) ≤ 10 ∧ (1 : Int) ≤ 40 ∧ (10 : Int) ≤ 40 ∧
      (40 : Int) ≤ (100 : Nat) :=
  ⟨(parse_range_error_classification (codes (r"abc")) 100).1 (by decide),
   ((parse_range_error_classification (codes (r"10-40")) 100).2 10 40).mp (by decide)⟩

/-- C7: whenever the split operation succeeds, its output file name is the
base name followed by "_p_", the validated start, a dash, the validated
end and the ".pdf" extension; in particular base "out" with range
(10, 40) yields "out_p_10-40.pdf". -/
theorem split_output_naming :
    (∀ (pages doc : List (List Nat)) (rs base fname : List Nat),
      split_pdf pages rs base = .ok (fname, doc) →
      ∃ s e : Int, parse_range rs pages.length = .ok (s, e) ∧
        fname = output_filename base s e) ∧
    output_filename (codes (r"out")) 10 40 = codes (r"out_p_10-40.pdf") := by
  constructor
  · intro pages doc rs base fname h
    unfold split_pdf at h
    rcases hp : parse_range rs pages.length with err | ⟨s, e⟩
    · rw [hp] at h; exact absurd h (by simp)
    · rw [hp] at h
      rw [Except.ok.injEq, Prod.mk.injEq] at h
      exact ⟨s, e, rfl, h.1.symm⟩
  · decide

/-- C7 witness: the naming law applied to a concrete successful split. -/
theorem split_output_naming_witness :
    ∃ s e : Int,
      parse_range (codes (r"2-4")) ([[0], [1], [2], [3], [4]] : List (List Nat)).length
        = .ok (s, e) ∧
      codes (r"out_p_2-4.pdf") = output_filename (codes (r"out")) s e :=
  split_output_naming.1 [[0], [1], [2], [3], [4]] [[1], [2], [3]] (codes (r"2-4"))
    (codes (r"out")) (codes (r"out_p_2-4.pdf")) (by decide)

/-- C9: a query that normalizes to the empty string (in particular the
empty query) matches every page, because the empty normalized query is a
substring of every normalized page text: the search returns
[1, 2, ..., N] for an N-page document. -/
theorem search_empty_query_all_pages (pages : List (List Nat)) (q : List Nat)
    (h : normalize q = []) :
    search_pdf pages q = List.range' 1 pages.length := by
  unfold search_pdf
  rw [h, searchFrom_nil_query]

/-- C9 witness: a blank query on a three-page document matches all pages. -/
theorem search_empty_query_all_pages_witness :
    search_pdf [[97], [98], [99]] (codes (r" ")) = [1, 2, 3] :=
  search_empty_query_all_pages [[97], [98], [99]] (codes (r" ")) (by decide)

/-- C2: the search operation returns exactly the 1-based page numbers
whose normalized extracted text contains the normalized query as a
substring, in strictly ascending order; a document where no page matches
yields the empty result, not an error (the operation is total). -/
theorem search_matches_characterization (pages : List (List Nat)) (q : List Nat) :
    (∀ k, k ∈ search_pdf pages q ↔
      1 ≤ k ∧ k ≤ pages.length ∧
        ∃ x y, normalize (pages.getD (k - 1) []) = x ++ normalize q ++ y) ∧
    List.Chain' (· < ·) (search_pdf pages q) ∧
    ((∀ i, i < pages.length →
        ∀ x y, normalize (pages.getD i []) ≠ x ++ normalize q ++ y) →
      search_pdf pages q = []) := by
  have hmem : ∀ k, k ∈ search_pdf pages q ↔ 1 ≤ k ∧ k ≤ pages.length ∧
      ∃ x y, normalize (pages.getD (k - 1) []) = x ++ normalize q ++ y := by
    intro k
    unfold search_pdf
    rw [searchFrom_mem]
    constructor
    · rintro ⟨j, hj, rfl, hc⟩
      rw [pyContains_iff_exists] at hc
      rcases hc with ⟨x, y, hxy⟩
      exact ⟨by omega, by omega, x, y, by simpa using hxy⟩
    · rintro ⟨h1, h2, x, y, hxy⟩
      refine ⟨k - 1, by omega, by omega, ?_⟩
      rw [pyContains_iff_exists]
      exact ⟨x, y, hxy⟩
  refine ⟨hmem, searchFrom_chain _ pages 0, ?_⟩
  intro h
  rw [List.eq_nil_iff_forall_not_mem]
  intro k hk
  rcases (hmem k).mp hk with ⟨h1, h2, x, y, hxy⟩
  exact h (k - 1) (by omega) x y hxy

/-- C2 witness: the characterization applied to a one-page document whose
only page matches the query. -/
theorem search_matches_characterization_witness :
    1 ∈ search_pdf [[97]] [97] :=
  ((search_matches_characterization [[97]] [97]).1 1).mpr
    ⟨by decide, by decide, [], [], by decide⟩

/-! ## Character-level lemmas for normalization -/

theorem pyIsSpace_iff (c : Nat) : pyIsSpace c = true ↔
    (9 ≤ c ∧ c ≤ 13) ∨ (28 ≤ c ∧ c ≤ 32) ∨ c = 133 ∨ c = 160 ∨ c = 5760 ∨
    (8192 ≤ c ∧ c ≤ 8202) ∨ c = 8232 ∨ c = 8233 ∨ c = 8239 ∨ c = 8287 ∨
    c = 12288 := by
  simp [pyIsSpace, Bool.or_eq_true, Bool.and_eq_true, decide_eq_true_eq,
    beq_iff_eq, and_assoc, or_assoc]

theorem pyIsSpace_32 : pyIsSpace 32 = true := by decide

theorem pyIsSpace_eq_false_of_mid (c : Nat) (h1 : 33 ≤ c) (h2 : c ≤ 132) :
    pyIsSpace c = false := by
  cases hps : pyIsSpace c with
  | false => rfl
  | true => exact absurd ((pyIsSpace_iff c).mp hps) (by omega)

theorem pyIsSpace_pyToLower (c : Nat) : pyIsSpace (pyToLower c) = pyIsSpace c := by
  unfold pyToLower
  split
  · rename_i h
    rw [pyIsSpace_eq_false_of_mid c (by omega) (by omega),
      pyIsSpace_eq_false_of_mid (c + 32) (by omega) (by omega)]
  · rfl

theorem pyToLower_idem (c : Nat) : pyToLower (pyToLower c) = pyToLower c := by
  unfold pyToLower
  split
  · rename_i h
    rw [if_neg (by omega)]
  · rfl

theorem pyToLower_not_upper (c : Nat) : ¬(65 ≤ pyToLower c ∧ pyToLower c ≤ 90) := by
  unfold pyToLower
  split <;> omega

/-! ## Collapse and strip lemmas -/

theorem dropWhile_head_false :
    ∀ (l : List Nat) (c : Nat) (t : List Nat),
      l.dropWhile pyIsSpace = c :: t → pyIsSpace c = false := by
  intro l
  induction l with
  | nil => intro c t h; simp at h
  | cons a l ih =>
    intro c t h
    rw [List.dropWhile_cons] at h
    split at h
    · exact ih c t h
    · rename_i ha
      injection h with h1 _
      subst h1
      simpa using ha

theorem collapseWS_true_eq (l : List Nat) :
    collapseWS true l = collapseWS false (l.dropWhile pyIsSpace) := by
  induction l with
  | nil => rfl
  | cons c rest ih =>
    cases hc : pyIsSpace c with
    | true => simp [collapseWS, List.dropWhile_cons, hc, ih]
    | false => simp [collapseWS, List.dropWhile_cons, hc]

theorem lstripWS_collapseWS (l : List Nat) :
    lstripWS (collapseWS false l) = collapseWS false (lstripWS l) := by
  cases l with
  | nil => rfl
  | cons c rest =>
    cases hc : pyIsSpace c with
    | false => simp [collapseWS, hc, lstripWS, List.dropWhile_cons]
    | true =>
      have hX := collapseWS_true_eq rest
      have hstop : (collapseWS false (rest.dropWhile pyIsSpace)).dropWhile pyIsSpace
          = collapseWS false (rest.dropWhile pyIsSpace) := by
        cases hm : rest.dropWhile pyIsSpace with
        | nil => simp [collapseWS]
        | cons d t =>
          have hd := dropWhile_head_false rest d t hm
          simp [collapseWS, hd, List.dropWhile_cons]
      simp [collapseWS, hc, lstripWS, List.dropWhile_cons, hX, hstop, pyIsSpace_32]

/-! ## Lemmas about words -/

theorem wordsWS_cons_of_space {c : Nat} (hc : pyIsSpace c = true) (rest : List Nat) :
    wordsWS (c :: rest) = wordsWS rest := by
  cases rest with
  | nil => simp [wordsWS, hc]
  | cons d t => simp [wordsWS, hc]

theorem wordsWS_dropWhile (l : List Nat) :
    wordsWS (l.dropWhile pyIsSpace) = wordsWS l := by
  induction l with
  | nil => rfl
  | cons c t ih =>
    cases hc : pyIsSpace c with
    | true => rw [List.dropWhile_cons, if_pos hc, ih, wordsWS_cons_of_space hc]
    | false => rw [List.dropWhile_cons, if_neg (by simp [hc])]

theorem wordsWS_shape :
    ∀ (t : List Nat) (d : Nat), pyIsSpace d = false →
      ∃ w ws, wordsWS (d :: t) = (d :: w) :: ws := by
  intro t
  induction t with
  | nil => intro d hd; exact ⟨[], [], by simp [wordsWS, hd]⟩
  | cons e t2 ih =>
    intro d hd
    cases he : pyIsSpace e with
    | true => exact ⟨[], wordsWS (e :: t2), by simp [wordsWS, hd, he]⟩
    | false =>
      obtain ⟨w, ws, hw⟩ := ih e he
      exact ⟨e :: w, ws, by simp [wordsWS, hd, he, hw]⟩

theorem wordsWS_wf :
    ∀ (l w : List Nat), w ∈ wordsWS l →
      w ≠ [] ∧ ∀ x ∈ w, pyIsSpace x = false := by
  intro l
  induction l with
  | nil => intro w hw; simp [wordsWS] at hw
  | cons c t ih =>
    intro w hw
    cases t with
    | nil =>
      cases hc : pyIsSpace c with
      | true => simp [wordsWS, hc] at hw
      | false =>
        simp only [wordsWS, hc, Bool.false_eq_true, if_false, List.mem_singleton] at hw
        subst hw
        exact ⟨by simp, fun x hx => by rw [List.mem_singleton.mp hx]; exact hc⟩
    | cons d t2 =>
      cases hc : pyIsSpace c with
      | true =>
        rw [wordsWS_cons_of_space hc] at hw
        exact ih w hw
      | false =>
        cases hd : pyIsSpace d with
        | true =>
          simp only [wordsWS, hc, hd, Bool.false_eq_true, if_false, if_true,
            List.mem_cons] at hw
          rcases hw with rfl | hw2
          · exact ⟨by simp, fun x hx => by rw [List.mem_singleton.mp hx]; exact hc⟩
          · exact ih w hw2
        | false =>
          obtain ⟨w1, ws, hw1⟩ := wordsWS_shape t2 d hd
          simp only [wordsWS, hc, hd, Bool.false_eq_true, if_false, hw1,
            List.mem_cons] at hw
          rcases hw with rfl | hw2
          · have hdw := ih (d :: w1) (by rw [hw1]; exact List.mem_cons_self _ _)
            refine ⟨by simp, fun x hx => ?_⟩
            rcases List.mem_cons.mp hx with rfl | hx2
            · exact hc
            · exact hdw.2 x hx2
          · exact ih w (by rw [hw1]; exact List.mem_cons_of_mem _ hw2)

/-! ## Intercalate and strip lemmas -/

theorem intercalate_single32 (w : List Nat) : List.intercalate [32] [w] = w := by
  simp [List.intercalate]

theorem intercalate_cons₂32 (a b : List Nat) (l : List (List Nat)) :
    List.intercalate [32] (a :: b :: l) = a ++ [32] ++ List.intercalate [32] (b :: l) := by
  simp [List.intercalate]

theorem intercalate_cons_head32 (c : Nat) (x : List Nat) (ws : List (List Nat)) :
    List.intercalate [32] ((c :: x) :: ws) = c :: List.intercalate [32] (x :: ws) := by
  cases ws <;> simp [List.intercalate]

theorem length_dropWhile_le_self (l : List Nat) :
    (l.dropWhile pyIsSpace).length ≤ l.length := by
  induction l with
  | nil => simp
  | cons a t ih =>
    rw [List.dropWhile_cons]
    split
    · exact Nat.le_trans ih (by simp)
    · simp

theorem getLast?_dropWhile (l : List Nat) (h : l.dropWhile pyIsSpace ≠ []) :
    (l.dropWhile pyIsSpace).getLast? = l.getLast? := by
  induction l with
  | nil => simp at h
  | cons a t ih =>
    rw [List.dropWhile_cons]
    split
    · rename_i ha
      rw [List.dropWhile_cons, if_pos ha] at h
      rw [ih h]
      have ht : t ≠ [] := by
        intro h0
        subst h0
        simp at h
      cases t with
      | nil => exact absurd rfl ht
      | cons b t2 => rw [List.getLast?_cons_cons]
    · rfl

/-- The heart of the normalization analysis: on input whose head is not
whitespace, the whitespace-collapsing pass produces the words joined by
single spaces, with one trailing space iff the input ended in whitespace. -/
theorem collapse_eq_words :
    ∀ (n : Nat) (m : List Nat), m.length ≤ n →
      (∀ c t, m = c :: t → pyIsSpace c = false) →
      collapseWS false m =
        List.intercalate [32] (wordsWS m) ++ (if endsWS m then [32] else []) := by
  intro n
  induction n with
  | zero =>
    intro m hm _
    rw [List.length_eq_zero.mp (Nat.le_zero.mp hm)]
    rfl
  | succ n ih =>
    intro m hm hhead
    cases m with
    | nil => rfl
    | cons c rest =>
      have hc : pyIsSpace c = false := hhead c rest rfl
      cases rest with
      | nil => simp [collapseWS, hc, wordsWS, endsWS, intercalate_single32]
      | cons d t =>
        have hlen : (d :: t).length ≤ n := by
          simp only [List.length_cons] at hm ⊢
          omega
        cases hd : pyIsSpace d with
        | false =>
          have ihm := ih (d :: t) hlen (fun c' t' h' => by
            injection h' with h1 _
            subst h1
            exact hd)
          obtain ⟨w, ws, hw⟩ := wordsWS_shape t d hd
          have hL : collapseWS false (c :: d :: t) = c :: collapseWS false (d :: t) := by
            simp [collapseWS, hc]
          have hW : wordsWS (c :: d :: t) = (c :: d :: w) :: ws := by
            simp [wordsWS, hc, hd, hw]
          have hE : endsWS (c :: d :: t) = endsWS (d :: t) := by
            simp [endsWS, List.getLast?_cons_cons]
          rw [hw] at ihm
          rw [hL, ihm, hW, hE, intercalate_cons_head32 c (d :: w) ws]
          simp [List.cons_append]
        | true =>
          have hL : collapseWS false (c :: d :: t) = c :: 32 :: collapseWS true t := by
            simp [collapseWS, hc, hd]
          rw [hL, collapseWS_true_eq]
          have hWc : wordsWS (c :: d :: t) = [c] :: wordsWS (d :: t) := by
            simp [wordsWS, hc, hd]
          have hWd : wordsWS (d :: t) = wordsWS (t.dropWhile pyIsSpace) := by
            rw [wordsWS_cons_of_space hd, wordsWS_dropWhile]
          cases hm2 : t.dropWhile pyIsSpace with
          | nil =>
            have hall : ∀ x ∈ t, pyIsSpace x = true := List.dropWhile_eq_nil_iff.mp hm2
            have hE : endsWS (c :: d :: t) = true := by
              have hgl := List.getLast?_eq_getLast (d :: t) (by simp)
              have hmem := List.getLast_mem (l := d :: t) (by simp)
              have hsp : pyIsSpace ((d :: t).getLast (by simp)) = true := by
                rcases List.mem_cons.mp hmem with heq | hmem2
                · rw [heq]; exact hd
                · exact hall _ hmem2
              unfold endsWS
              rw [List.getLast?_cons_cons, hgl]
              exact hsp
            rw [hm2] at hWd
            rw [hWc, hWd, hE]
            simp [collapseWS, wordsWS, intercalate_single32]
          | cons e t3 =>
            have he := dropWhile_head_false t e t3 hm2
            have hlen2 : (e :: t3).length ≤ n := by
              have hbound := length_dropWhile_le_self t
              rw [hm2] at hbound
              simp only [List.length_cons] at hm hbound ⊢
              omega
            have ihm2 := ih (e :: t3) hlen2 (fun c' t' h' => by
              injection h' with h1 _
              subst h1
              exact he)
            have ht_ne : t.dropWhile pyIsSpace ≠ [] := by rw [hm2]; simp
            have hE : endsWS (c :: d :: t) = endsWS (e :: t3) := by
              unfold endsWS
              rw [List.getLast?_cons_cons]
              have ht_ne2 : t ≠ [] := by
                intro h0
                rw [h0] at hm2
                simp at hm2
              have h1 : (d :: t).getLast? = t.getLast? := by
                cases t with
                | nil => exact absurd rfl ht_ne2
                | cons b t2 => rw [List.getLast?_cons_cons]
              rw [h1, ← getLast?_dropWhile t ht_ne, hm2]
            obtain ⟨w, ws, hw⟩ := wordsWS_shape t3 e he
            rw [hm2] at hWd
            rw [hw] at ihm2 hWd
            rw [ihm2, hWc, hWd, hE, intercalate_cons₂32 [c] (e :: w) ws]
            simp [List.append_assoc]

theorem rstripWS_append_space (x : List Nat) : rstripWS (x ++ [32]) = rstripWS x := by
  unfold rstripWS
  rw [List.reverse_append]
  simp [List.dropWhile_cons, pyIsSpace_32]

theorem rstripWS_eq_self (x : List Nat)
    (h : ∀ c, x.getLast? = some c → pyIsSpace c = false) : rstripWS x = x := by
  unfold rstripWS
  cases hr : x.reverse with
  | nil =>
    have hx : x = [] := by simpa using congrArg List.reverse hr
    rw [hx]
    rfl
  | cons c t =>
    have hc : x.getLast? = some c := by
      rw [← List.head?_reverse, hr]
      rfl
    rw [List.dropWhile_cons, if_neg (by simp [h c hc]), ← hr, List.reverse_reverse]

theorem intercalate_ne_nil32 (b : List Nat) (hb : b ≠ []) (l : List (List Nat)) :
    List.intercalate [32] (b :: l) ≠ [] := by
  cases l with
  | nil => simpa [intercalate_single32] using hb
  | cons c l2 =>
    rw [intercalate_cons₂32]
    simp [hb]

theorem intercalate_getLast?_nonWS :
    ∀ ws : List (List Nat),
      (∀ w ∈ ws, w ≠ [] ∧ ∀ x ∈ w, pyIsSpace x = false) →
      ∀ c, (List.intercalate [32] ws).getLast? = some c → pyIsSpace c = false := by
  intro ws
  induction ws with
  | nil => intro _ c hc; simp [List.intercalate] at hc
  | cons w l ih =>
    intro hwf c hc
    cases l with
    | nil =>
      rw [intercalate_single32] at hc
      have hw := hwf w (List.mem_cons_self _ _)
      obtain ⟨hne, heq⟩ := List.mem_getLast?_eq_getLast (x := c) (l := w) hc
      exact hw.2 c (heq ▸ List.getLast_mem hne)
    | cons b l2 =>
      rw [intercalate_cons₂32] at hc
      have hbne : b ≠ [] := (hwf b (by simp)).1
      have hIne := intercalate_ne_nil32 b hbne l2
      obtain ⟨z, hz⟩ : ∃ z, (List.intercalate [32] (b :: l2)).getLast? = some z := by
        cases hI : (List.intercalate [32] (b :: l2)).getLast? with
        | none => exact absurd (List.getLast?_eq_none_iff.mp hI) hIne
        | some z => exact ⟨z, rfl⟩
      rw [List.getLast?_append, List.getLast?_append, hz] at hc
      simp only [Option.or_some] at hc
      injection hc with hzc
      subst hzc
      exact ih (fun w' hw' => hwf w' (List.mem_cons_of_mem _ hw')) z hz

theorem stripWS_collapse_words (l : List Nat) :
    stripWS (collapseWS false l) = List.intercalate [32] (wordsWS l) := by
  unfold stripWS
  rw [lstripWS_collapseWS]
  set m := lstripWS l with hm
  have hhead : ∀ c t, m = c :: t → pyIsSpace c = false := fun c t h =>
    dropWhile_head_false l c t (by rw [← h]; rfl)
  have hw_eq : wordsWS m = wordsWS l := by
    rw [hm]
    exact wordsWS_dropWhile l
  rw [collapse_eq_words m.length m le_rfl hhead]
  have hself : rstripWS (List.intercalate [32] (wordsWS m))
      = List.intercalate [32] (wordsWS m) :=
    rstripWS_eq_self _ (intercalate_getLast?_nonWS (wordsWS m) (wordsWS_wf m))
  cases hE : endsWS m with
  | false =>
    rw [if_neg (by simp), List.append_nil, hself, hw_eq]
  | true =>
    rw [if_pos rfl, rstripWS_append_space, hself, hw_eq]

theorem pyToLower_32 : pyToLower 32 = 32 := by decide

theorem map_pyToLower_intercalate :
    ∀ ws : List (List Nat),
      (List.intercalate [32] ws).map pyToLower
        = List.intercalate [32] (ws.map (List.map pyToLower)) := by
  intro ws
  induction ws with
  | nil => rfl
  | cons a l ih =>
    cases l with
    | nil => simp [intercalate_single32]
    | cons b l2 =>
      simp only [List.map_cons] at ih ⊢
      rw [intercalate_cons₂32, List.map_append, List.map_append, ih,
        intercalate_cons₂32]
      simp [pyToLower_32]

/-- The bridge between the code's normalization pipeline and the
specification-side description: shared by several claims below. -/
theorem normalize_eq_normalizeSpec (l : List Nat) : normalize l = normalizeSpec l := by
  by_cases hl : l = []
  · subst hl; rfl
  · unfold normalize normalizeSpec
    rw [if_neg hl, stripWS_collapse_words, map_pyToLower_intercalate]

/-- C5: normalization collapses every run of whitespace to a single
space, removes leading and trailing whitespace, and lowercases — i.e. it
coincides with the specification-side normalization (the lowercased
whitespace-separated words joined by single spaces); empty input
normalizes to the empty string. -/
theorem normalize_collapses_trims_lowercases (l : List Nat) :
    normalize l = normalizeSpec l ∧ normalize [] = [] :=
  ⟨normalize_eq_normalizeSpec l, rfl⟩

/-! ## Idempotence and output invariants -/

theorem wordsWS_append_word :
    ∀ (w m : List Nat), w ≠ [] → (∀ x ∈ w, pyIsSpace x = false) →
      (m = [] ∨ ∃ d t, m = d :: t ∧ pyIsSpace d = true) →
      wordsWS (w ++ m) = w :: wordsWS m := by
  intro w
  induction w with
  | nil => intro m h _ _; exact absurd rfl h
  | cons c w2 ih =>
    intro m _ hnw hm
    have hc : pyIsSpace c = false := hnw c (List.mem_cons_self _ _)
    cases w2 with
    | nil =>
      rcases hm with rfl | ⟨d, t, rfl, hd⟩
      · simp [wordsWS, hc]
      · simp [wordsWS, hc, hd, wordsWS_cons_of_space hd]
    | cons c2 w3 =>
      have hc2 : pyIsSpace c2 = false := hnw c2 (by simp)
      have ih2 := ih m (by simp) (fun x hx => hnw x (List.mem_cons_of_mem _ hx)) hm
      simp only [List.cons_append] at ih2 ⊢
      simp [wordsWS, hc, hc2, ih2]

theorem wordsWS_intercalate :
    ∀ ws : List (List Nat),
      (∀ w ∈ ws, w ≠ [] ∧ ∀ x ∈ w, pyIsSpace x = false) →
      wordsWS (List.intercalate [32] ws) = ws := by
  intro ws
  induction ws with
  | nil => intro _; rfl
  | cons w l ih =>
    intro hwf
    have hw := hwf w (List.mem_cons_self _ _)
    cases l with
    | nil =>
      rw [intercalate_single32, ← List.append_nil w,
        wordsWS_append_word w [] hw.1 hw.2 (Or.inl rfl)]
      simp [wordsWS]
    | cons b l2 =>
      rw [intercalate_cons₂32, List.append_assoc, List.singleton_append,
        wordsWS_append_word w (32 :: List.intercalate [32] (b :: l2)) hw.1 hw.2
          (Or.inr ⟨32, _, rfl, pyIsSpace_32⟩),
        wordsWS_cons_of_space pyIsSpace_32,
        ih (fun w' hw' => hwf w' (List.mem_cons_of_mem _ hw'))]

theorem wordsWS_map_lower_wf (l : List Nat) :
    ∀ w ∈ (wordsWS l).map (List.map pyToLower),
      w ≠ [] ∧ ∀ x ∈ w, pyIsSpace x = false := by
  intro w hw
  rcases List.mem_map.mp hw with ⟨w0, hw0, rfl⟩
  have h0 := wordsWS_wf l w0 hw0
  refine ⟨by simpa using h0.1, fun x hx => ?_⟩
  rcases List.mem_map.mp hx with ⟨x0, hx0, rfl⟩
  rw [pyIsSpace_pyToLower]
  exact h0.2 x0 hx0

theorem wordsWS_normalize (l : List Nat) :
    wordsWS (normalize l) = (wordsWS l).map (List.map pyToLower) := by
  rw [normalize_eq_normalizeSpec]
  exact wordsWS_intercalate _ (wordsWS_map_lower_wf l)

/-- C6: normalization is idempotent — normalizing an already normalized
string returns it unchanged. -/
theorem normalize_idempotent (l : List Nat) :
    normalize (normalize l) = normalize l := by
  rw [normalize_eq_normalizeSpec (normalize l)]
  unfold normalizeSpec
  rw [wordsWS_normalize]
  have hmaps : ((wordsWS l).map (List.map pyToLower)).map (List.map pyToLower)
      = (wordsWS l).map (List.map pyToLower) := by
    rw [List.map_map]
    apply List.map_congr_left
    intro w _
    simp only [Function.comp_apply, List.map_map]
    apply List.map_congr_left
    intro x _
    exact pyToLower_idem x
  rw [hmaps, normalize_eq_normalizeSpec l]
  rfl

theorem mem_intercalate32 :
    ∀ (ws : List (List Nat)) (c : Nat),
      c ∈ List.intercalate [32] ws → c = 32 ∨ ∃ w ∈ ws, c ∈ w := by
  intro ws
  induction ws with
  | nil => intro c hc; simp [List.intercalate] at hc
  | cons w l ih =>
    intro c hc
    cases l with
    | nil =>
      rw [intercalate_single32] at hc
      exact Or.inr ⟨w, by simp, hc⟩
    | cons b l2 =>
      rw [intercalate_cons₂32, List.append_assoc] at hc
      rcases List.mem_append.mp hc with hcw | hcr
      · exact Or.inr ⟨w, by simp, hcw⟩
      · rcases List.mem_append.mp hcr with hc32 | hcI
        · exact Or.inl (by simpa using hc32)
        · rcases ih c hcI with h32 | ⟨w', hw', hcw'⟩
          · exact Or.inl h32
          · exact Or.inr ⟨w', List.mem_cons_of_mem _ hw', hcw'⟩

theorem intercalate_head?_nonWS :
    ∀ ws : List (List Nat),
      (∀ w ∈ ws, w ≠ [] ∧ ∀ x ∈ w, pyIsSpace x = false) →
      ∀ c, (List.intercalate [32] ws).head? = some c → pyIsSpace c = false := by
  intro ws hwf c hc
  cases ws with
  | nil => simp [List.intercalate] at hc
  | cons w l =>
    have hw := hwf w (List.mem_cons_self _ _)
    have hhead : (List.intercalate [32] (w :: l)).head? = w.head? := by
      cases l with
      | nil => rw [intercalate_single32]
      | cons b l2 =>
        rw [intercalate_cons₂32, List.append_assoc, List.head?_append]
        cases hw0 : w.head? with
        | none => exact absurd (by simpa using hw0) hw.1
        | some z => rfl
    rw [hhead] at hc
    exact hw.2 c (List.mem_of_mem_head? (by simp [hc]))

theorem chain_words_nonWS (w : List Nat) (h : ∀ x ∈ w, pyIsSpace x = false) :
    List.Chain' (fun a b => ¬(pyIsSpace a = true ∧ pyIsSpace b = true)) w := by
  induction w with
  | nil => simp
  | cons c t ih =>
    rw [List.chain'_cons']
    refine ⟨fun y _ hcy => ?_, ih (fun x hx => h x (List.mem_cons_of_mem _ hx))⟩
    rw [h c (List.mem_cons_self _ _)] at hcy
    exact absurd hcy.1 (by simp)

theorem chain_intercalate32 :
    ∀ ws : List (List Nat),
      (∀ w ∈ ws, w ≠ [] ∧ ∀ x ∈ w, pyIsSpace x = false) →
      List.Chain' (fun a b => ¬(pyIsSpace a = true ∧ pyIsSpace b = true))
        (List.intercalate [32] ws) := by
  intro ws
  induction ws with
  | nil => intro _; simp [List.intercalate]
  | cons w l ih =>
    intro hwf
    have hw := hwf w (List.mem_cons_self _ _)
    cases l with
    | nil =>
      rw [intercalate_single32]
      exact chain_words_nonWS w hw.2
    | cons b l2 =>
      have hwfl : ∀ w' ∈ b :: l2, w' ≠ [] ∧ ∀ x ∈ w', pyIsSpace x = false :=
        fun w' hw' => hwf w' (List.mem_cons_of_mem _ hw')
      rw [intercalate_cons₂32, List.append_assoc, List.singleton_append]
      rw [List.chain'_append]
      refine ⟨chain_words_nonWS w hw.2, ?_, ?_⟩
      · rw [List.chain'_cons']
        refine ⟨fun y hy h32y => ?_, ih hwfl⟩
        have hy' := intercalate_head?_nonWS (b :: l2) hwfl y (by simpa using hy)
        rw [hy'] at h32y
        exact absurd h32y.2 (by simp)
      · intro x hx y _ hxy
        have hxw : x ∈ w := by
          obtain ⟨hne, heq⟩ := List.mem_getLast?_eq_getLast hx
          exact heq ▸ List.getLast_mem hne
        rw [hw.2 x hxw] at hxy
        exact absurd hxy.1 (by simp)

/-- C10: on every input, the normalized output contains no uppercase
letter A–Z, no leading or trailing whitespace, no two adjacent whitespace
characters, and every whitespace character remaining in it is a single
space (code 32). The search operation only ever compares such normalized
strings. -/
theorem normalize_output_invariant (l : List Nat) :
    (∀ c ∈ normalize l, ¬(65 ≤ c ∧ c ≤ 90)) ∧
    (∀ c, (normalize l).head? = some c → pyIsSpace c = false) ∧
    (∀ c, (normalize l).getLast? = some c → pyIsSpace c = false) ∧
    List.Chain' (fun a b => ¬(pyIsSpace a = true ∧ pyIsSpace b = true))
      (normalize l) ∧
    (∀ c ∈ normalize l, pyIsSpace c = true → c = 32) := by
  rw [normalize_eq_normalizeSpec]
  unfold normalizeSpec
  have hwf := wordsWS_map_lower_wf l
  refine ⟨?_, intercalate_head?_nonWS _ hwf, intercalate_getLast?_nonWS _ hwf,
    chain_intercalate32 _ hwf, ?_⟩
  · intro c hc
    rcases mem_intercalate32 _ c hc with rfl | ⟨w, hw, hcw⟩
    · omega
    · rcases List.mem_map.mp hw with ⟨w0, _, rfl⟩
      rcases List.mem_map.mp hcw with ⟨x0, _, rfl⟩
      exact pyToLower_not_upper x0
  · intro c hc hWS
    rcases mem_intercalate32 _ c hc with rfl | ⟨w, hw, hcw⟩
    · rfl
    · exact absurd hWS (by simp [(hwf w hw).2 c hcw])

/-- C10 witness: the invariant applied to a concrete input containing an
uppercase letter, instantiated at the letter the output does contain. -/
theorem normalize_output_invariant_witness : ¬(65 ≤ 97 ∧ 97 ≤ 90) :=
  (normalize_output_invariant (codes (r"A b"))).1 97 (by decide)

end Pdfman
